import Mathlib

/-!
Shallow embedding of the version parsing and comparison engine of
src/homework.py (class Version: _split_version, _parse_main_version,
_parse_pre_release_parts, _compare_pre_release, _compare_pre_release_parts,
_compare_single_pre_release_part, __eq__, __lt__).

Python strings are modelled as `List Char` inside the parsing computations
(stored back as `String` in the parsed value).  `\d` in the regular
expressions and the digits accepted by Python's int() are modelled as ASCII
digits, and the whitespace stripped by int() as ASCII whitespace; non-ASCII
decimal digits and non-ASCII whitespace are not modelled.
-/

namespace Homework

/-- ASCII whitespace stripped by Python `int()` before parsing. -/
def pyWs (c : Char) : Bool :=
  c == ' ' || c == '\t' || c == '\n' || c == '\r' || c == '\x0b' || c == '\x0c'

/-- Strip leading and trailing whitespace, as Python `int()` does. -/
def pyStrip (l : List Char) : List Char :=
  ((l.dropWhile pyWs).reverse.dropWhile pyWs).reverse

/-- Decimal value of a list of ASCII digits. -/
def digitsToNat (l : List Char) : Nat :=
  l.foldl (fun a c => a * 10 + (c.toNat - 48)) 0

/-- Tail of Python `int()` digit parsing: further digits, with single
underscores allowed between two digits. -/
def pyDigitsCont : List Char → Nat → Option Nat
  | [], acc => some acc
  | '_' :: c :: rest, acc =>
      if c.isDigit then pyDigitsCont rest (acc * 10 + (c.toNat - 48)) else none
  | c :: rest, acc =>
      if c.isDigit then pyDigitsCont rest (acc * 10 + (c.toNat - 48)) else none

/-- Python `int()` digit sequence: nonempty, `_` only between digits. -/
def pyDigits : List Char → Option Nat
  | [] => none
  | c :: rest => if c.isDigit then pyDigitsCont rest (c.toNat - 48) else none

/-- Python `int(s)` on a string: optional surrounding whitespace, an optional
sign, then a digit sequence. -/
def pyIntParse (l : List Char) : Option Int :=
  match pyStrip l with
  | '-' :: rest => (pyDigits rest).map (fun n => -(Int.ofNat n))
  | '+' :: rest => (pyDigits rest).map (fun n => Int.ofNat n)
  | rest => (pyDigits rest).map (fun n => Int.ofNat n)

/-- Python `str.split(sep)` for a one-character separator (never returns an
empty list; splitting the empty string gives `[[]]`). -/
def pySplit (sep : Char) : List Char → List (List Char)
  | [] => [[]]
  | c :: rest =>
    match pySplit sep rest with
    | cur :: done => if c == sep then [] :: cur :: done else (c :: cur) :: done
    | [] => [[]]

/-- Python string `<`: lexicographic comparison by code point, a proper
prefix is smaller. -/
def lexLt : List Char → List Char → Bool
  | _, [] => false
  | [], _ :: _ => true
  | a :: as, b :: bs => if a < b then true else if b < a then false else lexLt as bs

/-- One parsed pre-release identifier: the tuple `(True, int(numbers[0]),
part)` or `(False, part, part)` built by `_parse_pre_release_parts`.  For the
`False` tuple the second and third components coincide, so only the text is
stored. -/
inductive PrePart where
  | num (value : Nat) (text : String)
  | txt (text : String)
deriving DecidableEq

/-- One loop step of `_parse_pre_release_parts`: `re.findall(r'\d+', part)`
finds the maximal digit runs; if there is one, the part is numeric with the
value of the first run, otherwise textual. -/
def parsePrePart (part : List Char) : PrePart :=
  match part.dropWhile (fun c => !c.isDigit) with
  | [] => PrePart.txt (String.mk part)
  | rest => PrePart.num (digitsToNat (rest.takeWhile Char.isDigit)) (String.mk part)

/-- `_parse_pre_release_parts` on a present pre-release tail. -/
def parsePreReleaseList (l : List Char) : List PrePart :=
  (pySplit '.' l).map parsePrePart

/-- The `while len(version_parts) < 3: version_parts.append('0')` padding of
`_parse_main_version`. -/
def padTo3 : List (List Char) → List (List Char)
  | [] => [['0'], ['0'], ['0']]
  | [a] => [a, ['0'], ['0']]
  | [a, b] => [a, b, ['0']]
  | l => l

/-- `_parse_main_version`: split on `.`, right-pad with `'0'` to length 3,
parse the first three entries with `int()`; `none` models the raised
`ValueError("Invalid version format: ...")`. -/
def parseMainVersion (mainV : List Char) : Option (Int × Int × Int) :=
  match padTo3 (pySplit '.' mainV) with
  | a :: b :: c :: _ =>
    match pyIntParse a, pyIntParse b, pyIntParse c with
    | some x, some y, some z => some (x, y, z)
    | _, _, _ => none
  | _ => none

/-- `re.match(r'^(\d+\.\d+\.\d+)([a-zA-Z].*)$', v)`: three nonempty digit
groups separated by dots, then an ASCII letter and arbitrary text.  `.`
does not match a newline and `$` also matches just before a single trailing
newline, so a trailing newline is allowed but excluded from group 2.
Returns the two groups. -/
def reMatch (l : List Char) : Option (List Char × List Char) :=
  match l.takeWhile Char.isDigit, l.dropWhile Char.isDigit with
  | [], _ => none
  | d1, '.' :: r1 =>
    match r1.takeWhile Char.isDigit, r1.dropWhile Char.isDigit with
    | [], _ => none
    | d2, '.' :: r2 =>
      match r2.takeWhile Char.isDigit, r2.dropWhile Char.isDigit with
      | [], _ => none
      | d3, c :: cs =>
        if c.isAlpha &&
            ((cs.dropWhile (fun x => x != '\n')).isEmpty ||
              cs.dropWhile (fun x => x != '\n') == ['\n']) then
          some (d1 ++ '.' :: d2 ++ '.' :: d3, c :: cs.takeWhile (fun x => x != '\n'))
        else none
      | _, _ => none
    | _, _ => none
  | _, _ => none

/-- `_split_version`: `lstrip('v')`, then split at the first `-` if any,
else try the letter-suffix regular expression, else no pre-release tail. -/
def splitVersionL (l : List Char) : List Char × Option (List Char) :=
  if (l.dropWhile (fun c => c == 'v')).contains '-' then
    ((l.dropWhile (fun c => c == 'v')).takeWhile (fun c => c != '-'),
      some (((l.dropWhile (fun c => c == 'v')).dropWhile (fun c => c != '-')).drop 1))
  else
    match reMatch (l.dropWhile (fun c => c == 'v')) with
    | some (mc, pr) => (mc, some pr)
    | none => (l.dropWhile (fun c => c == 'v'), none)

/-- The parsed version value: the fields set by `Version.__init__`. -/
structure PyVersion where
  version : String
  major : Int
  minor : Int
  patch : Int
  pre_release : Option String
  pre_release_parts : Option (List PrePart)
deriving DecidableEq

/-- `Version(version)`: the constructor; `none` models the raised
`ValueError` (the InvalidVersionFormat condition). -/
def Version.make (s : String) : Option PyVersion :=
  match parseMainVersion (splitVersionL s.data).1 with
  | none => none
  | some (ma, mi, pa) =>
    some { version := s, major := ma, minor := mi, patch := pa,
           pre_release := (splitVersionL s.data).2.map String.mk,
           pre_release_parts := (splitVersionL s.data).2.map parsePreReleaseList }

/-- `_compare_single_pre_release_part`: `some true` = self < other,
`some false` = self > other, `none` = tie at this position. -/
def comparePart : PrePart → PrePart → Option Bool
  | PrePart.num _ _, PrePart.txt _ => some true
  | PrePart.txt _, PrePart.num _ _ => some false
  | PrePart.num sv _, PrePart.num ov _ =>
      if sv < ov then some true else if ov < sv then some false else none
  | PrePart.txt ss, PrePart.txt os =>
      if lexLt ss.data os.data then some true
      else if lexLt os.data ss.data then some false
      else none

/-- `_compare_pre_release_parts`: positional comparison; a version that runs
out of identifiers first is lesser; all positions tied gives `False`. -/
def compareParts : List PrePart → List PrePart → Bool
  | [], [] => false
  | [], _ :: _ => true
  | _ :: _, [] => false
  | a :: as, b :: bs =>
    match comparePart a b with
    | some r => r
    | none => compareParts as bs

/-- `_compare_pre_release` (via `_has_pre_release`, i.e. whether
`pre_release_parts` is `None`). -/
def comparePreRelease : Option (List PrePart) → Option (List PrePart) → Bool
  | none, none => false
  | none, some _ => false
  | some _, none => true
  | some xs, some ys => compareParts xs ys

/-- `Version.__lt__`. -/
def Version.lt (a b : PyVersion) : Bool :=
  if a.major ≠ b.major then decide (a.major < b.major)
  else if a.minor ≠ b.minor then decide (a.minor < b.minor)
  else if a.patch ≠ b.patch then decide (a.patch < b.patch)
  else comparePreRelease a.pre_release_parts b.pre_release_parts

/-- `Version.__eq__` (between two Version instances). -/
def Version.beq (a b : PyVersion) : Bool :=
  a.major == b.major && a.minor == b.minor && a.patch == b.patch &&
    a.pre_release == b.pre_release

/-- End-to-end `Version(x) < Version(y)`; `none` when a construction fails. -/
def ltS (x y : String) : Option Bool :=
  match Version.make x, Version.make y with
  | some a, some b => some (Version.lt a b)
  | _, _ => none

/-- End-to-end `Version(x) == Version(y)`; `none` when a construction fails. -/
def eqS (x y : String) : Option Bool :=
  match Version.make x, Version.make y with
  | some a, some b => some (Version.beq a b)
  | _, _ => none

/-- The construction invariant: the identifier sequence is the one derived
from the stored raw pre-release text (absent together). -/
def VersionWf (v : PyVersion) : Prop :=
  v.pre_release_parts = v.pre_release.map (fun s => parsePreReleaseList s.data)

/- Sanity checks reproducing the repository's own unittest suite. -/

theorem sanity_basic :
    ltS "1.0.0" "2.0.0" = some true ∧ ltS "1.0.0" "1.1.0" = some true ∧
    ltS "1.1.0" "1.1.1" = some true ∧ ltS "2.0.0" "1.0.0" = some false := by decide

theorem sanity_pre_vs_release :
    ltS "1.0.0-alpha" "1.0.0" = some true ∧ ltS "1.0.0-beta" "1.0.0" = some true ∧
    ltS "1.0.0-rc.1" "1.0.0" = some true ∧ ltS "0.3.0b" "1.2.42" = some true := by decide

theorem sanity_pre_comparison :
    ltS "1.0.0-alpha" "1.0.0-alpha.1" = some true ∧
    ltS "1.0.0-alpha.1" "1.0.0-beta" = some true ∧
    ltS "1.0.0-beta" "1.0.0-rc" = some true ∧
    ltS "1.1.0-alpha" "1.2.0-alpha.1" = some true ∧
    ltS "1.0.1b" "1.0.10-alpha.beta" = some true := by decide

theorem sanity_numeric_vs_string :
    ltS "1.0.0-1" "1.0.0-alpha" = some true ∧ ltS "1.0.0-2" "1.0.0-10" = some true ∧
    ltS "1.0.0-alpha" "1.0.0-beta" = some true := by decide

theorem sanity_edge_cases :
    eqS "1.0.0-alpha" "1.0.0-alpha" = some true ∧
    ltS "1.0.0alpha" "1.0.0-beta" = some true ∧
    ltS "2.0.0b1" "2.0.0" = some true ∧
    eqS "1.0" "1.0.0" = some true ∧
    ltS "1" "1.1" = some true := by decide

/-! ### Order-theoretic facts about the comparator -/

lemma lexLt_irrefl (l : List Char) : lexLt l l = false := by
  induction l with
  | nil => rfl
  | cons c cs ih => simp [lexLt, ih]

lemma lexLt_trans : ∀ (a b c : List Char),
    lexLt a b = true → lexLt b c = true → lexLt a c = true := by
  intro a
  induction a with
  | nil =>
    intro b c h1 h2
    cases c with
    | nil => cases b <;> simp [lexLt] at h1 h2
    | cons z zs => simp [lexLt]
  | cons x xs ih =>
    intro b c h1 h2
    cases b with
    | nil => simp [lexLt] at h1
    | cons y ys =>
      cases c with
      | nil => simp [lexLt] at h2
      | cons z zs =>
        simp only [lexLt] at h1 h2 ⊢
        by_cases hxy : x < y
        · by_cases hyz : y < z
          · rw [if_pos (lt_trans hxy hyz)]
          · by_cases hzy : z < y
            · rw [if_neg hyz, if_pos hzy] at h2
              exact absurd h2 (by simp)
            · have hyzeq : y = z := le_antisymm (le_of_not_lt hzy) (le_of_not_lt hyz)
              subst hyzeq
              rw [if_pos hxy]
        · by_cases hyx : y < x
          · rw [if_neg hxy, if_pos hyx] at h1
            exact absurd h1 (by simp)
          · have hxyeq : x = y := le_antisymm (le_of_not_lt hyx) (le_of_not_lt hxy)
            subst hxyeq
            rw [if_neg hxy, if_neg hyx] at h1
            by_cases hxz : x < z
            · rw [if_pos hxz]
            · by_cases hzx : z < x
              · rw [if_neg hxz, if_pos hzx] at h2
                exact absurd h2 (by simp)
              · rw [if_neg hxz, if_neg hzx] at h2 ⊢
                exact ih ys zs h1 h2

lemma lexLt_asymm : ∀ (a b : List Char), lexLt a b = true → lexLt b a = false := by
  intro a
  induction a with
  | nil =>
    intro b h
    cases b with
    | nil => simp [lexLt] at h
    | cons y ys => simp [lexLt]
  | cons x xs ih =>
    intro b h
    cases b with
    | nil => simp [lexLt] at h
    | cons y ys =>
      simp only [lexLt] at h ⊢
      by_cases hxy : x < y
      · rw [if_neg (lt_asymm hxy), if_pos hxy]
      · by_cases hyx : y < x
        · rw [if_neg hxy, if_pos hyx] at h
          exact absurd h (by simp)
        · rw [if_neg hxy, if_neg hyx] at h
          rw [if_neg hyx, if_neg hxy, ih ys h]

lemma lexLt_eq_of_both_false : ∀ (a b : List Char),
    lexLt a b = false → lexLt b a = false → a = b := by
  intro a
  induction a with
  | nil =>
    intro b h1 _
    cases b with
    | nil => rfl
    | cons y ys => simp [lexLt] at h1
  | cons x xs ih =>
    intro b h1 h2
    cases b with
    | nil => simp [lexLt] at h2
    | cons y ys =>
      simp only [lexLt] at h1 h2
      by_cases hxy : x < y
      · rw [if_pos hxy] at h1; exact absurd h1 (by simp)
      · by_cases hyx : y < x
        · rw [if_pos hyx] at h2; exact absurd h2 (by simp)
        · have hxyeq : x = y := le_antisymm (le_of_not_lt hyx) (le_of_not_lt hxy)
          subst hxyeq
          rw [if_neg hxy, if_neg hxy] at h1 h2
          rw [ih ys h1 h2]

/-- The sort key realised by `_compare_single_pre_release_part`: numeric
identifiers (by value) sort before textual identifiers (by text). -/
def partKey : PrePart → ℕ ⊕ (List Char)
  | PrePart.num v _ => Sum.inl v
  | PrePart.txt s => Sum.inr s.data

/-- Strict order on part keys. -/
def keyLt : ℕ ⊕ (List Char) → ℕ ⊕ (List Char) → Bool
  | Sum.inl v, Sum.inl w => decide (v < w)
  | Sum.inl _, Sum.inr _ => true
  | Sum.inr _, Sum.inl _ => false
  | Sum.inr s, Sum.inr t => lexLt s t

lemma keyLt_trans : ∀ a b c, keyLt a b = true → keyLt b c = true → keyLt a c = true := by
  intro a b c h1 h2
  cases a <;> cases b <;> cases c <;> simp_all [keyLt]
  · omega
  · exact lexLt_trans _ _ _ h1 h2

lemma keyLt_asymm : ∀ a b, keyLt a b = true → keyLt b a = false := by
  intro a b h
  cases a <;> cases b <;> simp_all [keyLt]
  · omega
  · exact lexLt_asymm _ _ h

lemma keyLt_irrefl (a : ℕ ⊕ (List Char)) : keyLt a a = false := by
  cases a <;> simp [keyLt, lexLt_irrefl]

lemma cp_eq_none_iff (x y : PrePart) : comparePart x y = none ↔ partKey x = partKey y := by
  cases x with
  | num v s =>
    cases y with
    | num w t =>
      simp only [comparePart, partKey]
      split_ifs with h1 h2 <;> simp <;> omega
    | txt t => simp [comparePart, partKey]
  | txt s =>
    cases y with
    | num w t => simp [comparePart, partKey]
    | txt t =>
      simp only [comparePart, partKey]
      split_ifs with h1 h2 <;> simp
      · intro he; rw [he] at h1; simp [lexLt_irrefl] at h1
      · intro he; rw [he] at h2; simp [lexLt_irrefl] at h2
      · exact lexLt_eq_of_both_false _ _ (by simpa using h1) (by simpa using h2)

lemma cp_eq_true_iff (x y : PrePart) :
    comparePart x y = some true ↔ keyLt (partKey x) (partKey y) = true := by
  cases x with
  | num v s =>
    cases y with
    | num w t =>
      simp only [comparePart, partKey, keyLt]
      split_ifs with h1 h2 <;> simp <;> omega
    | txt t => simp [comparePart, partKey, keyLt]
  | txt s =>
    cases y with
    | num w t => simp [comparePart, partKey, keyLt]
    | txt t =>
      simp only [comparePart, partKey, keyLt]
      split_ifs with h1 h2 <;> simp_all

lemma cp_eq_false_iff (x y : PrePart) :
    comparePart x y = some false ↔ keyLt (partKey y) (partKey x) = true := by
  cases x with
  | num v s =>
    cases y with
    | num w t =>
      simp only [comparePart, partKey, keyLt]
      split_ifs with h1 h2 <;> simp <;> omega
    | txt t => simp [comparePart, partKey, keyLt]
  | txt s =>
    cases y with
    | num w t => simp [comparePart, partKey, keyLt]
    | txt t =>
      simp only [comparePart, partKey, keyLt]
      split_ifs with h1 h2
      · simp [lexLt_asymm _ _ h1]
      · simp [h2]
      · simp [h2]

lemma cp_irrefl (x : PrePart) : comparePart x x = none :=
  (cp_eq_none_iff x x).mpr rfl

lemma cps_trans : ∀ (a b c : List PrePart),
    compareParts a b = true → compareParts b c = true → compareParts a c = true := by
  intro a
  induction a with
  | nil =>
    intro b c h1 h2
    cases b with
    | nil => simp [compareParts] at h1
    | cons y ys =>
      cases c with
      | nil => simp [compareParts] at h2
      | cons z zs => simp [compareParts]
  | cons x xs ih =>
    intro b c h1 h2
    cases b with
    | nil => simp [compareParts] at h1
    | cons y ys =>
      cases c with
      | nil => simp [compareParts] at h2
      | cons z zs =>
        simp only [compareParts] at h1 h2 ⊢
        cases hxy : comparePart x y with
        | some rxy =>
          rw [hxy] at h1
          cases rxy with
          | false => exact absurd h1 (by simp)
          | true =>
            have kxy := (cp_eq_true_iff x y).mp hxy
            cases hyz : comparePart y z with
            | some ryz =>
              rw [hyz] at h2
              cases ryz with
              | false => exact absurd h2 (by simp)
              | true =>
                have kyz := (cp_eq_true_iff y z).mp hyz
                rw [(cp_eq_true_iff x z).mpr (keyLt_trans _ _ _ kxy kyz)]
            | none =>
              have kyz := (cp_eq_none_iff y z).mp hyz
              rw [(cp_eq_true_iff x z).mpr (kyz ▸ kxy)]
        | none =>
          rw [hxy] at h1
          have kxy := (cp_eq_none_iff x y).mp hxy
          cases hyz : comparePart y z with
          | some ryz =>
            rw [hyz] at h2
            cases ryz with
            | false => exact absurd h2 (by simp)
            | true =>
              have kyz := (cp_eq_true_iff y z).mp hyz
              rw [(cp_eq_true_iff x z).mpr (kxy ▸ kyz)]
          | none =>
            rw [hyz] at h2
            have kyz := (cp_eq_none_iff y z).mp hyz
            rw [(cp_eq_none_iff x z).mpr (kxy.trans kyz)]
            exact ih ys zs h1 h2

lemma cps_asymm : ∀ (a b : List PrePart),
    compareParts a b = true → compareParts b a = false := by
  intro a
  induction a with
  | nil =>
    intro b h
    cases b with
    | nil => simp [compareParts] at h
    | cons y ys => simp [compareParts]
  | cons x xs ih =>
    intro b h
    cases b with
    | nil => simp [compareParts] at h
    | cons y ys =>
      simp only [compareParts] at h ⊢
      cases hxy : comparePart x y with
      | some rxy =>
        rw [hxy] at h
        cases rxy with
        | false => exact absurd h (by simp)
        | true =>
          rw [(cp_eq_false_iff y x).mpr ((cp_eq_true_iff x y).mp hxy)]
      | none =>
        rw [hxy] at h
        rw [(cp_eq_none_iff y x).mpr ((cp_eq_none_iff x y).mp hxy).symm]
        exact ih ys h

lemma cps_irrefl : ∀ (a : List PrePart), compareParts a a = false := by
  intro a
  induction a with
  | nil => rfl
  | cons x xs ih =>
    simp only [compareParts]
    rw [cp_irrefl x]
    exact ih

/-- Positional ties on the common length, shorter sequence: lesser. -/
lemma cps_ties_lt : ∀ (a b : List PrePart),
    (∀ pr ∈ List.zip a b, comparePart pr.1 pr.2 = none) →
    a.length < b.length → compareParts a b = true := by
  intro a
  induction a with
  | nil =>
    intro b _ hlen
    cases b with
    | nil => simp at hlen
    | cons y ys => simp [compareParts]
  | cons x xs ih =>
    intro b hties hlen
    cases b with
    | nil => simp at hlen
    | cons y ys =>
      simp only [compareParts]
      rw [hties (x, y) (by simp [List.zip_cons_cons])]
      exact ih ys (fun pr hpr => hties pr (by simp [List.zip_cons_cons, hpr])) (by simpa using hlen)

/-- Positional ties on the common length, equal lengths: not less. -/
lemma cps_ties_eq : ∀ (a b : List PrePart),
    (∀ pr ∈ List.zip a b, comparePart pr.1 pr.2 = none) →
    a.length = b.length → compareParts a b = false := by
  intro a
  induction a with
  | nil =>
    intro b _ hlen
    cases b with
    | nil => rfl
    | cons y ys => simp at hlen
  | cons x xs ih =>
    intro b hties hlen
    cases b with
    | nil => simp at hlen
    | cons y ys =>
      simp only [compareParts]
      rw [hties (x, y) (by simp [List.zip_cons_cons])]
      exact ih ys (fun pr hpr => hties pr (by simp [List.zip_cons_cons, hpr])) (by simpa using hlen)

/-- Ties are symmetric. -/
lemma ties_symm : ∀ (a b : List PrePart),
    (∀ pr ∈ List.zip a b, comparePart pr.1 pr.2 = none) →
    (∀ pr ∈ List.zip b a, comparePart pr.1 pr.2 = none) := by
  intro a
  induction a with
  | nil =>
    intro b _ pr hpr
    cases b <;> simp at hpr
  | cons x xs ih =>
    intro b hties pr hpr
    cases b with
    | nil => simp at hpr
    | cons y ys =>
      rw [List.zip_cons_cons, List.mem_cons] at hpr
      rcases hpr with h | h
      · subst h
        exact (cp_eq_none_iff y x).mpr ((cp_eq_none_iff x y).mp
          (hties (x, y) (by simp [List.zip_cons_cons]))).symm
      · exact ih ys (fun q hq => hties q (by simp [List.zip_cons_cons, hq])) pr h

/-- A tied common prefix of equal length, then a decisive position. -/
lemma cps_append : ∀ (p q : List PrePart) (x y : PrePart) (xs ys : List PrePart) (r : Bool),
    p.length = q.length →
    (∀ pr ∈ List.zip p q, comparePart pr.1 pr.2 = none) →
    comparePart x y = some r →
    compareParts (p ++ x :: xs) (q ++ y :: ys) = r := by
  intro p
  induction p with
  | nil =>
    intro q x y xs ys r hlen hties hxy
    cases q with
    | nil => simp only [List.nil_append, compareParts, hxy]
    | cons b bs => simp at hlen
  | cons a as ih =>
    intro q x y xs ys r hlen hties hxy
    cases q with
    | nil => simp at hlen
    | cons b bs =>
      simp only [List.cons_append, compareParts]
      rw [hties (a, b) (by simp [List.zip_cons_cons])]
      exact ih bs x y xs ys r (by simpa using hlen)
        (fun pr hpr => hties pr (by simp [List.zip_cons_cons, hpr])) hxy

lemma cpr_trans : ∀ (p q r : Option (List PrePart)),
    comparePreRelease p q = true → comparePreRelease q r = true →
    comparePreRelease p r = true := by
  intro p q r h1 h2
  cases p with
  | none => cases q <;> simp [comparePreRelease] at h1
  | some xs =>
    cases q with
    | none => cases r <;> simp [comparePreRelease] at h2
    | some ys =>
      cases r with
      | none => simp [comparePreRelease]
      | some zs =>
        simp only [comparePreRelease] at h1 h2 ⊢
        exact cps_trans xs ys zs h1 h2

lemma cpr_asymm : ∀ (p q : Option (List PrePart)),
    comparePreRelease p q = true → comparePreRelease q p = false := by
  intro p q h
  cases p with
  | none => cases q <;> simp [comparePreRelease] at h
  | some xs =>
    cases q with
    | none => simp [comparePreRelease]
    | some ys =>
      simp only [comparePreRelease] at h ⊢
      exact cps_asymm xs ys h

lemma cpr_irrefl : ∀ (p : Option (List PrePart)), comparePreRelease p p = false := by
  intro p
  cases p with
  | none => rfl
  | some xs => exact cps_irrefl xs

/-- `__lt__` unfolded into the lexicographic triple-then-pre-release shape. -/
lemma lt_iff (a b : PyVersion) : Version.lt a b = true ↔
    (a.major < b.major ∨ (a.major = b.major ∧ (a.minor < b.minor ∨ (a.minor = b.minor ∧
      (a.patch < b.patch ∨ (a.patch = b.patch ∧
        comparePreRelease a.pre_release_parts b.pre_release_parts = true)))))) := by
  by_cases h1 : a.major = b.major <;> by_cases h2 : a.minor = b.minor <;>
    by_cases h3 : a.patch = b.patch <;>
    simp [Version.lt, h1, h2, h3] <;> omega

/-- With an equal numeric triple, `__lt__` is the pre-release comparison. -/
lemma lt_triple_eq (a b : PyVersion)
    (h1 : a.major = b.major) (h2 : a.minor = b.minor) (h3 : a.patch = b.patch) :
    Version.lt a b = comparePreRelease a.pre_release_parts b.pre_release_parts := by
  simp [Version.lt, h1, h2, h3]

lemma lt_trans_ver (a b c : PyVersion)
    (h1 : Version.lt a b = true) (h2 : Version.lt b c = true) :
    Version.lt a c = true := by
  rw [lt_iff] at h1 h2 ⊢
  rcases h1 with h1 | ⟨e1, h1⟩
  · rcases h2 with h2 | ⟨e2, _⟩
    · exact Or.inl (by omega)
    · exact Or.inl (by omega)
  · rcases h2 with h2 | ⟨e2, h2⟩
    · exact Or.inl (by omega)
    · refine Or.inr ⟨by omega, ?_⟩
      rcases h1 with h1 | ⟨f1, h1⟩
      · rcases h2 with h2 | ⟨f2, _⟩
        · exact Or.inl (by omega)
        · exact Or.inl (by omega)
      · rcases h2 with h2 | ⟨f2, h2⟩
        · exact Or.inl (by omega)
        · refine Or.inr ⟨by omega, ?_⟩
          rcases h1 with h1 | ⟨g1, h1⟩
          · rcases h2 with h2 | ⟨g2, _⟩
            · exact Or.inl (by omega)
            · exact Or.inl (by omega)
          · rcases h2 with h2 | ⟨g2, h2⟩
            · exact Or.inl (by omega)
            · exact Or.inr ⟨by omega, cpr_trans _ _ _ h1 h2⟩

lemma lt_asymm_ver (a b : PyVersion) (h : Version.lt a b = true) :
    Version.lt b a = false := by
  rw [← Bool.not_eq_true]
  intro h'
  rw [lt_iff] at h h'
  rcases h with h | ⟨e1, h⟩ <;> rcases h' with h' | ⟨e1', h'⟩
  · omega
  · omega
  · omega
  · rcases h with h | ⟨e2, h⟩ <;> rcases h' with h' | ⟨e2', h'⟩
    · omega
    · omega
    · omega
    · rcases h with h | ⟨e3, h⟩ <;> rcases h' with h' | ⟨e3', h'⟩
      · omega
      · omega
      · omega
      · rw [cpr_asymm _ _ h] at h'
        exact absurd h' (by simp)

/-- Inversion of a successful construction. -/
lemma make_fields (s : String) (v : PyVersion) (h : Version.make s = some v) :
    v.version = s ∧
    parseMainVersion (splitVersionL s.data).1 = some (v.major, v.minor, v.patch) ∧
    v.pre_release = (splitVersionL s.data).2.map String.mk ∧
    v.pre_release_parts = (splitVersionL s.data).2.map parsePreReleaseList := by
  unfold Version.make at h
  split at h
  · simp at h
  · next ma mi pa hp =>
    simp only [Option.some.injEq] at h
    subst h
    exact ⟨rfl, hp, rfl, rfl⟩

/-- A successful construction satisfies the well-formedness invariant. -/
lemma make_wf (s : String) (v : PyVersion) (h : Version.make s = some v) : VersionWf v := by
  obtain ⟨-, -, hpre, hparts⟩ := make_fields s v h
  unfold VersionWf
  rw [hpre, hparts]
  cases (splitVersionL s.data).2 <;> rfl

/-- `__eq__` unfolded to its four field equations. -/
lemma beq_iff (a b : PyVersion) : Version.beq a b = true ↔
    (a.major = b.major ∧ a.minor = b.minor ∧ a.patch = b.patch ∧
      a.pre_release = b.pre_release) := by
  simp [Version.beq, Bool.and_assoc]

lemma beq_not_lt (a b : PyVersion) (wa : VersionWf a) (wb : VersionWf b)
    (h : Version.beq a b = true) :
    Version.lt a b = false ∧ Version.lt b a = false := by
  rw [beq_iff] at h
  obtain ⟨h1, h2, h3, h4⟩ := h
  have hparts : a.pre_release_parts = b.pre_release_parts := by
    rw [wa, wb, h4]
  constructor
  · rw [lt_triple_eq a b h1 h2 h3, hparts]
    exact cpr_irrefl _
  · rw [lt_triple_eq b a h1.symm h2.symm h3.symm, hparts]
    exact cpr_irrefl _

/-- Ties on the whole of the shorter right argument: not lesser. -/
lemma cps_ties_gt : ∀ (a b : List PrePart),
    (∀ pr ∈ List.zip a b, comparePart pr.1 pr.2 = none) →
    b.length < a.length → compareParts a b = false := by
  intro a
  induction a with
  | nil =>
    intro b _ hlen
    simp at hlen
  | cons x xs ih =>
    intro b hties hlen
    cases b with
    | nil => rfl
    | cons y ys =>
      simp only [compareParts]
      rw [hties (x, y) (by simp [List.zip_cons_cons])]
      exact ih ys (fun pr hpr => hties pr (by simp [List.zip_cons_cons, hpr])) (by simpa using hlen)

/-- With equal triples, a tied common prefix and then a decisive position,
the decisive position decides both directions. -/
lemma lt_of_decisive (a b : PyVersion) (p q xs ys : List PrePart) (x y : PrePart)
    (hma : a.major = b.major) (hmi : a.minor = b.minor) (hpa : a.patch = b.patch)
    (hap : a.pre_release_parts = some (p ++ x :: xs))
    (hbp : b.pre_release_parts = some (q ++ y :: ys))
    (hlen : p.length = q.length)
    (hties : ∀ pr ∈ List.zip p q, comparePart pr.1 pr.2 = none)
    (hxy : comparePart x y = some true) :
    Version.lt a b = true ∧ Version.lt b a = false := by
  constructor
  · rw [lt_triple_eq a b hma hmi hpa, hap, hbp]
    exact cps_append p q x y xs ys true hlen hties hxy
  · rw [lt_triple_eq b a hma.symm hmi.symm hpa.symm, hbp, hap]
    show compareParts (q ++ y :: ys) (p ++ x :: xs) = false
    exact cps_append q p y x ys xs false hlen.symm (ties_symm p q hties)
      ((cp_eq_false_iff y x).mpr ((cp_eq_true_iff x y).mp hxy))

/-! ### Claim theorems -/

/-- C1 (counterexample to the claim as stated): `Version('1.0.0-01')` and
`Version('1.0.0-1')` are both successfully constructed, yet none of
`a < b`, `a == b`, `b < a` holds — the parsed identifiers tie (both are
numeric with value 1), while equality compares the raw pre-release text
`"01" != "1"`.  So "exactly one of the three holds" fails. -/
theorem C1_trichotomy_counterexample :
    (Version.make "1.0.0-01").isSome = true ∧ (Version.make "1.0.0-1").isSome = true ∧
    ltS "1.0.0-01" "1.0.0-1" = some false ∧ eqS "1.0.0-01" "1.0.0-1" = some false ∧
    ltS "1.0.0-1" "1.0.0-01" = some false := by decide

/-- C1 (amended): for successfully constructed versions, at most one of
`a < b`, `a == b`, `b < a` holds; the strict order is transitive and
antisymmetric, and `equals(a, b)` being true implies neither `a < b` nor
`b < a`.  (Exactly-one fails: see the counterexample.) -/
theorem C1_total_order_amended (sa sb sc : String) (a b c : PyVersion)
    (ha : Version.make sa = some a) (hb : Version.make sb = some b)
    (hc : Version.make sc = some c) :
    (Version.lt a b = true → Version.lt b c = true → Version.lt a c = true) ∧
    (Version.lt a b = true → Version.lt b a = false) ∧
    (Version.beq a b = true → Version.lt a b = false ∧ Version.lt b a = false) :=
  ⟨fun h1 h2 => lt_trans_ver a b c h1 h2,
   fun h => lt_asymm_ver a b h,
   fun h => beq_not_lt a b (make_wf sa a ha) (make_wf sb b hb) h⟩

def vA : PyVersion := ⟨"1.0.0", 1, 0, 0, none, none⟩
def vB : PyVersion := ⟨"1.1.0", 1, 1, 0, none, none⟩
def vC : PyVersion := ⟨"2.0.0", 2, 0, 0, none, none⟩

theorem C1_total_order_amended_witness :
    Version.make "1.0.0" = some vA ∧ Version.make "1.1.0" = some vB ∧
    Version.make "2.0.0" = some vC ∧ Version.lt vA vB = true ∧ Version.lt vB vC = true ∧
    Version.lt vA vC = true ∧ Version.lt vB vA = false ∧ Version.beq vA vA = true ∧
    Version.lt vA vA = false :=
  ⟨by decide, by decide, by decide, by decide, by decide,
   (C1_total_order_amended "1.0.0" "1.1.0" "2.0.0" vA vB vC (by decide) (by decide)
     (by decide)).1 (by decide) (by decide),
   (C1_total_order_amended "1.0.0" "1.1.0" "2.0.0" vA vB vC (by decide) (by decide)
     (by decide)).2.1 (by decide),
   by decide,
   ((C1_total_order_amended "1.0.0" "1.0.0" "1.0.0" vA vA vA (by decide) (by decide)
     (by decide)).2.2 (by decide)).1⟩

/-- C3: when both versions carry pre-release identifier sequences, the
numeric triples agree, a common prefix ties positionally, and at the first
differing position one identifier is numeric and the other textual, the
version with the numeric identifier is strictly lesser — whatever the
numeric value and the text; in particular
`Version('1.0.0-1') < Version('1.0.0-alpha')`. -/
theorem C3_numeric_before_textual :
    (∀ (a b : PyVersion) (p q xs ys : List PrePart) (v : ℕ) (s t : String),
      a.major = b.major → a.minor = b.minor → a.patch = b.patch →
      a.pre_release_parts = some (p ++ PrePart.num v s :: xs) →
      b.pre_release_parts = some (q ++ PrePart.txt t :: ys) →
      p.length = q.length →
      (∀ pr ∈ List.zip p q, comparePart pr.1 pr.2 = none) →
      Version.lt a b = true ∧ Version.lt b a = false) ∧
    ltS "1.0.0-1" "1.0.0-alpha" = some true := by
  refine ⟨?_, by decide⟩
  intro a b p q xs ys v s t hma hmi hpa hap hbp hlen hties
  exact lt_of_decisive a b p q xs ys _ _ hma hmi hpa hap hbp hlen hties rfl

def vNum1 : PyVersion := ⟨"1.0.0-1", 1, 0, 0, some "1", some [PrePart.num 1 "1"]⟩
def vAlpha : PyVersion := ⟨"1.0.0-alpha", 1, 0, 0, some "alpha", some [PrePart.txt "alpha"]⟩

theorem C3_numeric_before_textual_witness :
    Version.lt vNum1 vAlpha = true ∧ Version.lt vAlpha vNum1 = false :=
  C3_numeric_before_textual.1 vNum1 vAlpha [] [] [] [] 1 "1" "alpha" rfl rfl rfl rfl rfl rfl
    (fun pr hpr => absurd hpr (List.not_mem_nil pr))

/-- C4: `__eq__` holds iff major, minor and patch match and the raw
pre-release text matches exactly (absent equals absent); the parsed
identifier sequences play no role.  In particular
`Version('1.0.0-alpha') == Version('1.0.0-alpha')` and
`Version('1.0.0-rc.1') != Version('1.0.0')`. -/
theorem C4_equality_literal_text :
    (∀ a b : PyVersion, Version.beq a b = true ↔
      (a.major = b.major ∧ a.minor = b.minor ∧ a.patch = b.patch ∧
        a.pre_release = b.pre_release)) ∧
    eqS "1.0.0-alpha" "1.0.0-alpha" = some true ∧
    eqS "1.0.0-rc.1" "1.0.0" = some false :=
  ⟨beq_iff, by decide, by decide⟩

theorem C4_equality_literal_text_witness :
    Version.beq vA vA = true :=
  (C4_equality_literal_text.1 vA vA).mpr ⟨rfl, rfl, rfl, rfl⟩

/-- C5: two numeric identifiers compare by integer value (magnitude), and a
value tie moves to the next position for any stored texts — no fall back to
`original_text`; in particular `Version('1.0.0-2') < Version('1.0.0-10')`. -/
theorem C5_numeric_by_value :
    (∀ (v : ℕ) (s t : String) (xs ys : List PrePart),
      compareParts (PrePart.num v s :: xs) (PrePart.num v t :: ys) = compareParts xs ys) ∧
    (∀ (a b : PyVersion) (p q xs ys : List PrePart) (v w : ℕ) (s t : String),
      a.major = b.major → a.minor = b.minor → a.patch = b.patch →
      a.pre_release_parts = some (p ++ PrePart.num v s :: xs) →
      b.pre_release_parts = some (q ++ PrePart.num w t :: ys) →
      p.length = q.length →
      (∀ pr ∈ List.zip p q, comparePart pr.1 pr.2 = none) →
      v < w →
      Version.lt a b = true ∧ Version.lt b a = false) ∧
    ltS "1.0.0-2" "1.0.0-10" = some true := by
  refine ⟨?_, ?_, by decide⟩
  · intro v s t xs ys
    simp [compareParts, comparePart]
  · intro a b p q xs ys v w s t hma hmi hpa hap hbp hlen hties hvw
    exact lt_of_decisive a b p q xs ys _ _ hma hmi hpa hap hbp hlen hties
      (by simp [comparePart, hvw])

def vTwo : PyVersion := ⟨"1.0.0-2", 1, 0, 0, some "2", some [PrePart.num 2 "2"]⟩
def vTen : PyVersion := ⟨"1.0.0-10", 1, 0, 0, some "10", some [PrePart.num 10 "10"]⟩

theorem C5_numeric_by_value_witness :
    Version.lt vTwo vTen = true ∧ Version.lt vTen vTwo = false :=
  C5_numeric_by_value.2.1 vTwo vTen [] [] [] [] 2 10 "2" "10" rfl rfl rfl rfl rfl rfl
    (fun pr hpr => absurd hpr (List.not_mem_nil pr)) (by decide)

/-- C6: when both versions carry identifier sequences and every position up
to the shorter length ties, the strictly shorter sequence is lesser, and
equal-length all-tied sequences are not-less-than in either direction; in
particular `Version('1.0.0-alpha') < Version('1.0.0-alpha.1')`. -/
theorem C6_shorter_sequence_lesser :
    (∀ (a b : PyVersion) (xs ys : List PrePart),
      a.major = b.major → a.minor = b.minor → a.patch = b.patch →
      a.pre_release_parts = some xs → b.pre_release_parts = some ys →
      (∀ pr ∈ List.zip xs ys, comparePart pr.1 pr.2 = none) →
      (xs.length < ys.length → Version.lt a b = true ∧ Version.lt b a = false) ∧
      (xs.length = ys.length → Version.lt a b = false ∧ Version.lt b a = false)) ∧
    ltS "1.0.0-alpha" "1.0.0-alpha.1" = some true := by
  refine ⟨?_, by decide⟩
  intro a b xs ys hma hmi hpa hap hbp hties
  constructor
  · intro hlen
    constructor
    · rw [lt_triple_eq a b hma hmi hpa, hap, hbp]
      exact cps_ties_lt xs ys hties hlen
    · rw [lt_triple_eq b a hma.symm hmi.symm hpa.symm, hbp, hap]
      show compareParts ys xs = false
      exact cps_ties_gt ys xs (ties_symm xs ys hties) hlen
  · intro hlen
    constructor
    · rw [lt_triple_eq a b hma hmi hpa, hap, hbp]
      exact cps_ties_eq xs ys hties hlen
    · rw [lt_triple_eq b a hma.symm hmi.symm hpa.symm, hbp, hap]
      show compareParts ys xs = false
      exact cps_ties_eq ys xs (ties_symm xs ys hties) hlen.symm

def vAlpha1 : PyVersion :=
  ⟨"1.0.0-alpha.1", 1, 0, 0, some "alpha.1", some [PrePart.txt "alpha", PrePart.num 1 "1"]⟩

theorem C6_shorter_sequence_lesser_witness :
    Version.lt vAlpha vAlpha1 = true ∧ Version.lt vAlpha1 vAlpha = false :=
  (C6_shorter_sequence_lesser.1 vAlpha vAlpha1 [PrePart.txt "alpha"]
    [PrePart.txt "alpha", PrePart.num 1 "1"] rfl rfl rfl rfl rfl
    (fun pr hpr => by
      simp only [List.zip_cons_cons, List.zip_nil_left, List.mem_singleton] at hpr
      subst hpr
      decide)).1 (by decide)

/-- C8: the numeric core is right-padded with `"0"` entries to length 3, so
`Version('1')`, `Version('1.0')` and `Version('1.0.0')` all construct the
triple `(1, 0, 0)` with no pre-release tail and are pairwise equal. -/
theorem C8_default_padding :
    (∀ l : List (List Char),
      (l.length < 3 → padTo3 l = l ++ List.replicate (3 - l.length) ['0']) ∧
      (3 ≤ l.length → padTo3 l = l)) ∧
    Version.make "1" = some ⟨"1", 1, 0, 0, none, none⟩ ∧
    Version.make "1.0" = some ⟨"1.0", 1, 0, 0, none, none⟩ ∧
    Version.make "1.0.0" = some ⟨"1.0.0", 1, 0, 0, none, none⟩ ∧
    eqS "1" "1.0" = some true ∧ eqS "1.0" "1.0.0" = some true ∧
    eqS "1" "1.0.0" = some true := by
  refine ⟨fun l => ⟨?_, ?_⟩, by decide, by decide, by decide, by decide, by decide, by decide⟩
  · intro h
    match l with
    | [] => rfl
    | [a] => rfl
    | [a, b] => rfl
    | a :: b :: c :: r => exact absurd h (by simp)
  · intro h
    match l with
    | [] => simp at h
    | [a] => simp at h
    | [a, b] => simp at h
    | a :: b :: c :: r => rfl

theorem C8_default_padding_witness :
    padTo3 [['1']] = [['1']] ++ List.replicate (3 - [['1']].length) ['0'] :=
  (C8_default_padding.1 [['1']]).1 (by decide)

/-! ### Facts about the splitter and the core parser -/

lemma contains_true_iff (l : List Char) (c : Char) : l.contains c = true ↔ c ∈ l := by
  induction l with
  | nil => simp [List.contains, List.elem]
  | cons x xs ih =>
    simp only [List.contains] at ih ⊢
    rw [List.elem_cons]
    by_cases hx : c = x
    · subst hx; simp
    · have : (c == x) = false := beq_eq_false_iff_ne.mpr hx
      rw [this]
      simp [ih, hx]

lemma contains_false_iff (l : List Char) (c : Char) : l.contains c = false ↔ c ∉ l := by
  rw [← contains_true_iff l c]
  cases l.contains c <;> simp

lemma dropWhile_append_of_ne (l r : List Char) (p : Char → Bool)
    (h : l.dropWhile p ≠ []) : (l ++ r).dropWhile p = l.dropWhile p ++ r := by
  induction l with
  | nil => simp [List.dropWhile] at h
  | cons c cs ih =>
    by_cases hc : p c = true
    · rw [List.dropWhile_cons, if_pos hc] at h
      rw [List.cons_append, List.dropWhile_cons, if_pos hc, List.dropWhile_cons, if_pos hc]
      exact ih h
    · have hc' : p c = false := by simpa using hc
      rw [List.cons_append, List.dropWhile_cons, if_neg (by simp [hc']),
        List.dropWhile_cons, if_neg (by simp [hc']), List.cons_append]

/-- A construction that found no pre-release tail went through the third
splitter branch: no dash in the `v`-stripped string and no regex match. -/
lemma split_no_pre_inv (l : List Char) (h : (splitVersionL l).2 = none) :
    (l.dropWhile (fun c => c == 'v')).contains '-' = false ∧
    reMatch (l.dropWhile (fun c => c == 'v')) = none ∧
    splitVersionL l = (l.dropWhile (fun c => c == 'v'), none) := by
  unfold splitVersionL at h ⊢
  by_cases hc : (l.dropWhile (fun c => c == 'v')).contains '-' = true
  · rw [if_pos hc] at h
    simp at h
  · have hc' : (l.dropWhile (fun c => c == 'v')).contains '-' = false := by simpa using hc
    rw [if_neg hc] at h
    rw [if_neg hc]
    cases hm : reMatch (l.dropWhile (fun c => c == 'v')) with
    | some pr =>
      obtain ⟨mc, tail⟩ := pr
      rw [hm] at h
      exact Option.noConfusion h
    | none =>
      exact ⟨hc', rfl, rfl⟩

lemma parseMainVersion_nil : parseMainVersion [] = none := by decide

/-- C2: with identical numeric triples, the version carrying a pre-release
tail is strictly less than the one without; in particular appending
`-T` (nonempty `T`) to a tail-free parseable core yields a strictly lesser
version: `Version('X.Y.Z-T') < Version('X.Y.Z')`. -/
theorem C2_release_beats_pre_release :
    (∀ (sa sb : String) (a b : PyVersion),
      Version.make sa = some a → Version.make sb = some b →
      a.major = b.major → a.minor = b.minor → a.patch = b.patch →
      a.pre_release ≠ none → b.pre_release = none →
      Version.lt a b = true ∧ Version.lt b a = false) ∧
    (∀ (core t : String) (b : PyVersion),
      Version.make core = some b → b.pre_release = none → t ≠ "" →
      ∃ a, Version.make (core ++ "-" ++ t) = some a ∧
        Version.lt a b = true ∧ Version.lt b a = false) := by
  constructor
  · intro sa sb a b ha hb hma hmi hpa hpre hbpre
    have wa := make_wf sa a ha
    have wb := make_wf sb b hb
    obtain ⟨pa, hpa'⟩ := Option.ne_none_iff_exists'.mp hpre
    have hap : a.pre_release_parts = some (parsePreReleaseList pa.data) := by
      rw [wa, hpa']
      rfl
    have hbp : b.pre_release_parts = none := by
      rw [wb, hbpre]
      rfl
    constructor
    · rw [lt_triple_eq a b hma hmi hpa, hap, hbp]
      rfl
    · rw [lt_triple_eq b a hma.symm hmi.symm hpa.symm, hbp, hap]
      rfl
  · intro core t b hb hbpre _
    obtain ⟨hver, hpm, hpre, hparts⟩ := make_fields core b hb
    have h2 : (splitVersionL core.data).2 = none := by
      rw [hpre] at hbpre
      exact Option.map_eq_none'.mp hbpre
    obtain ⟨hnc, hre, hsp⟩ := split_no_pre_inv core.data h2
    have hfst0 : (splitVersionL core.data).1 = core.data.dropWhile (fun c => c == 'v') := by
      rw [hsp]
    rw [hfst0] at hpm
    have hv_ne : core.data.dropWhile (fun c => c == 'v') ≠ [] := by
      intro h0
      rw [h0, parseMainVersion_nil] at hpm
      exact absurd hpm (by simp)
    have hnomem : '-' ∉ core.data.dropWhile (fun c => c == 'v') :=
      (contains_false_iff _ _).mp hnc
    have hdata : (core ++ "-" ++ t).data = core.data ++ '-' :: t.data := by
      rw [String.data_append, String.data_append, List.append_assoc]
      rfl
    have hdw : (core.data ++ '-' :: t.data).dropWhile (fun c => c == 'v') =
        core.data.dropWhile (fun c => c == 'v') ++ '-' :: t.data :=
      dropWhile_append_of_ne _ _ _ hv_ne
    have hmem : ∀ x ∈ core.data.dropWhile (fun c => c == 'v'), (x != '-') = true := by
      intro x hx
      have hxne : x ≠ '-' := fun he => hnomem (he ▸ hx)
      simpa using hxne
    have htw : (core.data.dropWhile (fun c => c == 'v') ++ '-' :: t.data).takeWhile
        (fun c => c != '-') = core.data.dropWhile (fun c => c == 'v') := by
      rw [List.takeWhile_append_of_pos hmem]
      simp [List.takeWhile_cons]
    have hdw2 : (core.data.dropWhile (fun c => c == 'v') ++ '-' :: t.data).dropWhile
        (fun c => c != '-') = '-' :: t.data := by
      rw [List.dropWhile_append_of_pos hmem]
      simp [List.dropWhile_cons]
    have hcont : (core.data.dropWhile (fun c => c == 'v') ++ '-' :: t.data).contains '-' = true :=
      (contains_true_iff _ _).mpr (by simp)
    have hsp2 : splitVersionL (core ++ "-" ++ t).data =
        (core.data.dropWhile (fun c => c == 'v'), some t.data) := by
      rw [hdata]
      unfold splitVersionL
      rw [hdw, if_pos hcont, htw, hdw2]
      rfl
    have hbp : b.pre_release_parts = none := by
      rw [hparts, h2]
      rfl
    have hmk : Version.make (core ++ "-" ++ t) =
        some ⟨core ++ "-" ++ t, b.major, b.minor, b.patch, some (String.mk t.data),
          some (parsePreReleaseList t.data)⟩ := by
      unfold Version.make
      have hfst2 : (splitVersionL (core ++ "-" ++ t).data).1 =
          core.data.dropWhile (fun c => c == 'v') := by rw [hsp2]
      have hsnd2 : (splitVersionL (core ++ "-" ++ t).data).2 = some t.data := by rw [hsp2]
      rw [hfst2, hsnd2, hpm]
      rfl
    have hlt1 : Version.lt ⟨core ++ "-" ++ t, b.major, b.minor, b.patch, some (String.mk t.data),
        some (parsePreReleaseList t.data)⟩ b = true := by
      rw [lt_triple_eq ⟨core ++ "-" ++ t, b.major, b.minor, b.patch, some (String.mk t.data),
        some (parsePreReleaseList t.data)⟩ b rfl rfl rfl, hbp]
      rfl
    have hlt2 : Version.lt b ⟨core ++ "-" ++ t, b.major, b.minor, b.patch, some (String.mk t.data),
        some (parsePreReleaseList t.data)⟩ = false := by
      rw [lt_triple_eq b ⟨core ++ "-" ++ t, b.major, b.minor, b.patch, some (String.mk t.data),
        some (parsePreReleaseList t.data)⟩ rfl rfl rfl, hbp]
      rfl
    exact ⟨⟨core ++ "-" ++ t, b.major, b.minor, b.patch, some (String.mk t.data),
      some (parsePreReleaseList t.data)⟩, hmk, hlt1, hlt2⟩

def vRel : PyVersion := ⟨"1.2.3", 1, 2, 3, none, none⟩

theorem C2_release_beats_pre_release_witness :
    ∃ a, Version.make ("1.2.3" ++ "-" ++ "alpha") = some a ∧
      Version.lt a vRel = true ∧ Version.lt vRel a = false :=
  C2_release_beats_pre_release.2 "1.2.3" "alpha" vRel (by decide) (by decide) (by decide)

lemma pySplit_shape (sep : Char) (l : List Char) :
    ∃ cur done, pySplit sep l = cur :: done := by
  induction l with
  | nil => exact ⟨[], [], rfl⟩
  | cons c rest ih =>
    obtain ⟨cur, done, h⟩ := ih
    by_cases hc : (c == sep) = true
    · exact ⟨[], cur :: done, by simp [pySplit, h, hc]⟩
    · exact ⟨c :: cur, done, by simp [pySplit, h, hc]⟩

lemma pySplit_subset (sep : Char) (l : List Char) : ∀ e ∈ pySplit sep l, ∀ x ∈ e, x ∈ l := by
  induction l with
  | nil =>
    intro e he x hx
    simp [pySplit] at he
    subst he
    simp at hx
  | cons c rest ih =>
    intro e he x hx
    obtain ⟨cur, done, hcd⟩ := pySplit_shape sep rest
    simp only [pySplit, hcd] at he
    by_cases hc : (c == sep) = true
    · rw [if_pos hc] at he
      rcases List.mem_cons.mp he with rfl | he'
      · simp at hx
      · exact List.mem_cons_of_mem c (ih e (by rw [hcd]; exact he') x hx)
    · rw [if_neg hc] at he
      rcases List.mem_cons.mp he with rfl | he'
      · rcases List.mem_cons.mp hx with rfl | hx'
        · exact List.mem_cons_self x rest
        · exact List.mem_cons_of_mem c
            (ih cur (by rw [hcd]; exact List.mem_cons_self cur done) x hx')
      · exact List.mem_cons_of_mem c (ih e (by rw [hcd]; exact List.mem_cons_of_mem cur he') x hx)

lemma padTo3_shape (l : List (List Char)) : ∃ a b c r, padTo3 l = a :: b :: c :: r := by
  match l with
  | [] => exact ⟨_, _, _, _, rfl⟩
  | [a] => exact ⟨_, _, _, _, rfl⟩
  | [a, b] => exact ⟨_, _, _, _, rfl⟩
  | a :: b :: c :: r => exact ⟨a, b, c, r, rfl⟩

lemma padTo3_mem (l : List (List Char)) (e : List Char) (h : e ∈ padTo3 l) :
    e ∈ l ∨ e = ['0'] := by
  match l with
  | [] => simp [padTo3] at h ⊢; tauto
  | [a] => simp [padTo3] at h ⊢; tauto
  | [a, b] => simp [padTo3] at h ⊢; tauto
  | a :: b :: c :: r => exact Or.inl h

lemma reMatch_subset (l mc pr : List Char) (h : reMatch l = some (mc, pr)) :
    ∀ x ∈ mc, x ∈ l := by
  unfold reMatch at h
  split at h
  · simp at h
  · rename_i d1 r1 heq1 heq2
    split at h
    · simp at h
    · rename_i d2 r2 heq3 heq4
      split at h
      · simp at h
      · rename_i hd cs0 heq5 heq6
        split_ifs at h with hcond
        simp only [Option.some.injEq, Prod.mk.injEq] at h
        obtain ⟨hmc, hpr⟩ := h
        subst hmc
        have hsub1 : ∀ y, y ∈ ('.' :: r1) → y ∈ l := by
          intro y hy
          rw [← heq1] at hy
          exact (List.dropWhile_sublist _).subset hy
        have hsub2 : ∀ y, y ∈ ('.' :: r2) → y ∈ r1 := by
          intro y hy
          rw [← heq3] at hy
          exact (List.dropWhile_sublist _).subset hy
        intro x hx
        simp only [List.mem_append, List.mem_cons] at hx
        have hinr1 : x ∈ List.takeWhile Char.isDigit r1 → x ∈ l := fun hm =>
          hsub1 x (List.mem_cons_of_mem '.' ((List.takeWhile_sublist _).subset hm))
        have hinr2 : x ∈ List.takeWhile Char.isDigit r2 → x ∈ l := fun hm =>
          hsub1 x (List.mem_cons_of_mem '.'
            (hsub2 x (List.mem_cons_of_mem '.' ((List.takeWhile_sublist _).subset hm))))
        rcases hx with (hx | hx | hx) | hx | hx
        · exact (List.takeWhile_sublist _).subset hx
        · subst hx
          exact hsub1 '.' (List.mem_cons_self '.' r1)
        · exact hinr1 hx
        · subst hx
          exact hsub1 '.' (List.mem_cons_of_mem '.' (hsub2 '.' (List.mem_cons_self '.' r2)))
        · exact hinr2 hx
      · simp at h
    · simp at h
  · simp at h

/-- The numeric core chosen by the splitter never contains a dash. -/
lemma core_no_dash (l : List Char) : '-' ∉ (splitVersionL l).1 := by
  unfold splitVersionL
  by_cases hc : ((l.dropWhile (fun c => c == 'v')).contains '-') = true
  · rw [if_pos hc]
    intro hm
    have hval := List.mem_takeWhile_imp hm
    simp at hval
  · rw [if_neg hc]
    have hc' : '-' ∉ l.dropWhile (fun c => c == 'v') :=
      (contains_false_iff _ _).mp (by simpa using hc)
    cases hm : reMatch (l.dropWhile (fun c => c == 'v')) with
    | some pr =>
      obtain ⟨mc, tail⟩ := pr
      intro hmem
      exact hc' (reMatch_subset _ _ _ hm '-' hmem)
    | none => exact hc'

lemma pyStrip_subset (l : List Char) : ∀ x ∈ pyStrip l, x ∈ l := by
  intro x hx
  unfold pyStrip at hx
  rw [List.mem_reverse] at hx
  have h1 := (List.dropWhile_sublist pyWs).subset hx
  rw [List.mem_reverse] at h1
  exact (List.dropWhile_sublist pyWs).subset h1

/-- Without a dash in the text, Python `int()` cannot return a negative. -/
lemma pyIntParse_nonneg (l : List Char) (hnd : '-' ∉ l) (n : Int)
    (h : pyIntParse l = some n) : 0 ≤ n := by
  unfold pyIntParse at h
  split at h
  · rename_i rest heq
    exact absurd (pyStrip_subset l '-' (by rw [heq]; exact List.mem_cons_self _ _)) hnd
  · rename_i rest heq
    simp only [Option.map_eq_some'] at h
    obtain ⟨m, -, hm⟩ := h
    rw [← hm]
    exact Int.ofNat_nonneg m
  · simp only [Option.map_eq_some'] at h
    obtain ⟨m, -, hm⟩ := h
    rw [← hm]
    exact Int.ofNat_nonneg m

lemma parseMainVersion_eq_none_iff (m : List Char) :
    parseMainVersion m = none ↔
      ∃ e ∈ (padTo3 (pySplit '.' m)).take 3, pyIntParse e = none := by
  obtain ⟨a, b, c, r, hsh⟩ := padTo3_shape (pySplit '.' m)
  unfold parseMainVersion
  rw [hsh]
  have htake : (a :: b :: c :: r).take 3 = [a, b, c] := rfl
  rw [htake]
  cases hA : pyIntParse a <;> cases hB : pyIntParse b <;> cases hC : pyIntParse c <;>
    simp [hA, hB, hC]

/-- C7: construction fails (the InvalidVersionFormat condition) iff, after
splitting the numeric core on `.` and right-padding with `"0"` to length 3,
one of the first three entries is not accepted by `int()`; successful parses
of those entries are always non-negative (the core never contains `-`), so
failure is exactly "not parseable as a non-negative integer", and no other
stage fails.  In particular `Version('abc.def.ghi')` fails. -/
theorem C7_failure_iff_core_unparseable :
    (∀ s : String, Version.make s = none ↔
      ∃ e ∈ (padTo3 (pySplit '.' (splitVersionL s.data).1)).take 3, pyIntParse e = none) ∧
    (∀ (s : String) (v : PyVersion), Version.make s = some v →
      0 ≤ v.major ∧ 0 ≤ v.minor ∧ 0 ≤ v.patch) ∧
    Version.make "abc.def.ghi" = none := by
  refine ⟨?_, ?_, by decide⟩
  · intro s
    rw [← parseMainVersion_eq_none_iff]
    unfold Version.make
    cases hp : parseMainVersion (splitVersionL s.data).1 with
    | none => exact ⟨fun _ => rfl, fun _ => rfl⟩
    | some tr =>
      obtain ⟨x, y, z⟩ := tr
      exact iff_of_false (fun h' => Option.noConfusion h') (fun h' => Option.noConfusion h')
  · intro s v h
    obtain ⟨-, hpm, -, -⟩ := make_fields s v h
    obtain ⟨a, b, c, r, hsh⟩ := padTo3_shape (pySplit '.' (splitVersionL s.data).1)
    have hnd : ∀ e, e ∈ padTo3 (pySplit '.' (splitVersionL s.data).1) → '-' ∉ e := by
      intro e he
      rcases padTo3_mem _ e he with hmem | rfl
      · intro hm
        exact core_no_dash s.data (pySplit_subset '.' _ e hmem '-' hm)
      · decide
    unfold parseMainVersion at hpm
    rw [hsh] at hpm
    split at hpm
    · rename_i a' b' c' r' heq
      cases heq
      split at hpm
      · rename_i x y z hx hy hz
        simp only [Option.some.injEq, Prod.mk.injEq] at hpm
        obtain ⟨hxv, hyv, hzv⟩ := hpm
        have ha_mem : a ∈ padTo3 (pySplit '.' (splitVersionL s.data).1) := by
          rw [hsh]; exact List.mem_cons_self _ _
        have hb_mem : b ∈ padTo3 (pySplit '.' (splitVersionL s.data).1) := by
          rw [hsh]; simp
        have hc_mem : c ∈ padTo3 (pySplit '.' (splitVersionL s.data).1) := by
          rw [hsh]; simp
        exact ⟨hxv ▸ pyIntParse_nonneg a (hnd a ha_mem) x hx,
          hyv ▸ pyIntParse_nonneg b (hnd b hb_mem) y hy,
          hzv ▸ pyIntParse_nonneg c (hnd c hc_mem) z hz⟩
      · simp at hpm
    · rename_i hcontra
      exact absurd rfl (hcontra a b c r)

theorem C7_failure_iff_core_unparseable_witness :
    Version.make "abc" = none ∧ (0 ≤ vA.major ∧ 0 ≤ vA.minor ∧ 0 ≤ vA.patch) :=
  ⟨(C7_failure_iff_core_unparseable.1 "abc").mpr ⟨"abc".data, by decide, by decide⟩,
   C7_failure_iff_core_unparseable.2.1 "1.0.0" vA (by decide)⟩

/-- C9 (counterexample to the claim as stated): the claim says only a single
leading `v` is stripped, so `Version('vv1.0.0')` should fail; but the code
uses `lstrip('v')`, which strips every leading `v`, so `Version('vv1.0.0')`
is constructed successfully and equals `Version('1.0.0')`. -/
theorem C9_single_v_counterexample :
    (Version.make "vv1.0.0").isSome = true ∧ eqS "vv1.0.0" "1.0.0" = some true := by decide

/-- C9 (amended): construction strips all leading `v` characters before
splitting — prefixing any constructible string with `v` yields a version
equal (and field-identical apart from the raw text) to the original; so
`Version('v1.0.0') == Version('1.0.0')` and also
`Version('vv1.0.0') == Version('1.0.0')`. -/
theorem C9_strip_leading_v_amended :
    (∀ (s : String) (a : PyVersion), Version.make s = some a →
      ∃ b, Version.make ("v" ++ s) = some b ∧ Version.beq b a = true ∧
        b.major = a.major ∧ b.minor = a.minor ∧ b.patch = a.patch ∧
        b.pre_release = a.pre_release) ∧
    eqS "v1.0.0" "1.0.0" = some true ∧ eqS "vv1.0.0" "1.0.0" = some true := by
  refine ⟨?_, by decide, by decide⟩
  intro s a ha
  obtain ⟨hver, hpm, hpre, hparts⟩ := make_fields s a ha
  have hdata : ("v" ++ s).data = 'v' :: s.data := by
    rw [String.data_append]
    rfl
  have hsp : splitVersionL ('v' :: s.data) = splitVersionL s.data := by
    unfold splitVersionL
    rw [show ('v' :: s.data).dropWhile (fun c => c == 'v') =
        s.data.dropWhile (fun c => c == 'v') from by rw [List.dropWhile_cons]; simp]
  refine ⟨⟨"v" ++ s, a.major, a.minor, a.patch, a.pre_release, a.pre_release_parts⟩,
    ?_, (beq_iff _ _).mpr ⟨rfl, rfl, rfl, rfl⟩, rfl, rfl, rfl, rfl⟩
  unfold Version.make
  rw [hdata, hsp, hpm]
  show some (PyVersion.mk ("v" ++ s) a.major a.minor a.patch
    ((splitVersionL s.data).2.map String.mk)
    ((splitVersionL s.data).2.map parsePreReleaseList)) = _
  rw [← hpre, ← hparts]

def vA' : PyVersion := ⟨"v1.0.0", 1, 0, 0, none, none⟩

theorem C9_strip_leading_v_amended_witness :
    Version.beq vA' vA = true := by
  obtain ⟨b, hb, hbeq, -, -, -, -⟩ := C9_strip_leading_v_amended.1 "1.0.0" vA (by decide)
  have hb' : Version.make ("v" ++ "1.0.0") = some vA' := by decide
  rw [Option.some.inj (hb.symm.trans hb')] at hbeq
  exact hbeq

lemma isAlpha_not_isDigit (c : Char) (h : c.isAlpha = true) : c.isDigit = false := by
  simp only [Char.isAlpha, Char.isUpper, Char.isLower, Char.isDigit, Bool.or_eq_true,
    Bool.and_eq_true, decide_eq_true_iff, ge_iff_le, Char.le_def] at h ⊢
  rcases h with ⟨h1, h2⟩ | ⟨h1, h2⟩ <;> simp [UInt32.le_def, BitVec.le_def] at * <;> omega

lemma digit_ne_v {c : Char} (h : c.isDigit = true) : (c == 'v') = false := by
  rw [beq_eq_false_iff_ne]
  intro he
  rw [he] at h
  exact absurd h (by decide)

lemma tw_digits_stop (d R : List Char) (c : Char) (hd : ∀ x ∈ d, x.isDigit = true)
    (hc : c.isDigit = false) : (d ++ c :: R).takeWhile Char.isDigit = d := by
  rw [List.takeWhile_append_of_pos hd]
  simp [List.takeWhile_cons, hc]

lemma dw_digits_stop (d R : List Char) (c : Char) (hd : ∀ x ∈ d, x.isDigit = true)
    (hc : c.isDigit = false) : (d ++ c :: R).dropWhile Char.isDigit = c :: R := by
  rw [List.dropWhile_append_of_pos hd]
  simp [List.dropWhile_cons, hc]

lemma dropWhile_eq_self_of_head (p : Char → Bool) (a : Char) (t R : List Char)
    (h : p a = false) : ((a :: t) ++ R).dropWhile p = (a :: t) ++ R := by
  simp [List.cons_append, List.dropWhile_cons, h]

/-- C10 (counterexample to the claim as stated): the claim quantifies over
every dash-free three-digit-groups-then-letter input and promises the split
core/tail with the tail being everything from the first letter onward, but
`Version('1.2.3b\nx')` does not split at all (in the regular expression `.`
cannot cross the interior newline, so the whole string stays the numeric
core and construction fails), and for `Version('1.2.3b\n')` the extracted
tail is `'b'`, not `'b\n'` (`$` tolerates a single trailing newline but
group 2 stops before it). -/
theorem C10_newline_counterexample :
    splitVersionL "1.2.3b\nx".data = ("1.2.3b\nx".data, none) ∧
    Version.make "1.2.3b\nx" = none ∧
    splitVersionL "1.2.3b\n".data = ("1.2.3".data, some "b".data) ∧
    Version.make "1.2.3b\n" =
      some ⟨"1.2.3b\n", 1, 2, 3, some "b", some [PrePart.txt "b"]⟩ := by decide

/-- C10 (amended): after the `v`-strip, a dash-free string of exactly three
dot-separated nonempty all-digit groups immediately followed by an ASCII
letter, whose remainder after that letter contains no newline, is split into
the three-group numeric core and the pre-release tail starting at the first
letter; with only two digit groups the rule does not apply (the whole string
stays the numeric core, with no tail).  Consequently
`Version('0.3.0b') < Version('1.2.42')` and
`Version('1.0.0alpha') < Version('1.0.0-beta')`.  (Newline-carrying
remainders diverge from the original claim: see the counterexample.) -/
theorem C10_letter_suffix_rule :
    (∀ (d1 d2 d3 rest : List Char) (c : Char),
      d1 ≠ [] → d2 ≠ [] → d3 ≠ [] →
      (∀ x ∈ d1, x.isDigit = true) → (∀ x ∈ d2, x.isDigit = true) →
      (∀ x ∈ d3, x.isDigit = true) →
      c.isAlpha = true →
      '-' ∉ ((d1 ++ '.' :: d2 ++ '.' :: d3) ++ c :: rest) →
      '\n' ∉ rest →
      splitVersionL ((d1 ++ '.' :: d2 ++ '.' :: d3) ++ c :: rest) =
        (d1 ++ '.' :: d2 ++ '.' :: d3, some (c :: rest))) ∧
    (∀ (d1 d2 rest : List Char) (c : Char),
      d1 ≠ [] → d2 ≠ [] →
      (∀ x ∈ d1, x.isDigit = true) → (∀ x ∈ d2, x.isDigit = true) →
      c.isAlpha = true →
      '-' ∉ ((d1 ++ '.' :: d2) ++ c :: rest) →
      splitVersionL ((d1 ++ '.' :: d2) ++ c :: rest) = ((d1 ++ '.' :: d2) ++ c :: rest, none)) ∧
    ltS "0.3.0b" "1.2.42" = some true ∧ ltS "1.0.0alpha" "1.0.0-beta" = some true := by
  refine ⟨?_, ?_, by decide, by decide⟩
  · intro d1 d2 d3 rest c hne1 hne2 hne3 hdig1 hdig2 hdig3 halpha hnd hnl
    have hcdig : c.isDigit = false := isAlpha_not_isDigit c halpha
    have hassoc : (d1 ++ '.' :: d2 ++ '.' :: d3) ++ c :: rest =
        d1 ++ '.' :: (d2 ++ '.' :: (d3 ++ c :: rest)) := by
      simp only [List.append_assoc, List.cons_append]
    rw [hassoc] at hnd ⊢
    obtain ⟨a1, t1, rfl⟩ := List.exists_cons_of_ne_nil hne1
    have hrestne : ∀ x ∈ rest, (x != '\n') = true := by
      intro x hx
      have hxne : x ≠ '\n' := fun he => hnl (he ▸ hx)
      simpa using hxne
    have hnl1 : rest.dropWhile (fun x => x != '\n') = [] :=
      List.dropWhile_eq_nil_iff.mpr hrestne
    have hnl2 : rest.takeWhile (fun x => x != '\n') = rest :=
      List.takeWhile_eq_self_iff.mpr hrestne
    have hre : reMatch ((a1 :: t1) ++ '.' :: (d2 ++ '.' :: (d3 ++ c :: rest))) =
        some ((a1 :: t1) ++ '.' :: d2 ++ '.' :: d3, c :: rest) := by
      obtain ⟨a2, t2, rfl⟩ := List.exists_cons_of_ne_nil hne2
      obtain ⟨a3, t3, rfl⟩ := List.exists_cons_of_ne_nil hne3
      simp only [reMatch,
        tw_digits_stop (a1 :: t1) ((a2 :: t2) ++ '.' :: ((a3 :: t3) ++ c :: rest)) '.' hdig1
          (by decide),
        dw_digits_stop (a1 :: t1) ((a2 :: t2) ++ '.' :: ((a3 :: t3) ++ c :: rest)) '.' hdig1
          (by decide),
        tw_digits_stop (a2 :: t2) ((a3 :: t3) ++ c :: rest) '.' hdig2 (by decide),
        dw_digits_stop (a2 :: t2) ((a3 :: t3) ++ c :: rest) '.' hdig2 (by decide),
        tw_digits_stop (a3 :: t3) rest c hdig3 hcdig,
        dw_digits_stop (a3 :: t3) rest c hdig3 hcdig,
        hnl1, hnl2, halpha]
      simp
    unfold splitVersionL
    have hvv := dropWhile_eq_self_of_head (fun x => x == 'v') a1
      (t1 ++ '.' :: (d2 ++ '.' :: (d3 ++ c :: rest))) []
      (digit_ne_v (hdig1 a1 (by simp)))
    rw [List.append_nil] at hvv
    rw [show (a1 :: t1) ++ '.' :: (d2 ++ '.' :: (d3 ++ c :: rest)) =
        (a1 :: (t1 ++ '.' :: (d2 ++ '.' :: (d3 ++ c :: rest)))) from by simp] at hnd ⊢
    rw [hvv]
    have hcf : ¬((a1 :: (t1 ++ '.' :: (d2 ++ '.' :: (d3 ++ c :: rest)))).contains '-' = true) := by
      rw [(contains_false_iff _ _).mpr hnd]
      simp
    rw [if_neg hcf]
    rw [show (a1 :: (t1 ++ '.' :: (d2 ++ '.' :: (d3 ++ c :: rest)))) =
        ((a1 :: t1) ++ '.' :: (d2 ++ '.' :: (d3 ++ c :: rest))) from by simp]
    rw [hre]
  · intro d1 d2 rest c hne1 hne2 hdig1 hdig2 halpha hnd
    have hcdig : c.isDigit = false := isAlpha_not_isDigit c halpha
    have hassoc : (d1 ++ '.' :: d2) ++ c :: rest = d1 ++ '.' :: (d2 ++ c :: rest) := by
      simp only [List.append_assoc, List.cons_append]
    rw [hassoc] at hnd ⊢
    obtain ⟨a1, t1, rfl⟩ := List.exists_cons_of_ne_nil hne1
    have hre : reMatch ((a1 :: t1) ++ '.' :: (d2 ++ c :: rest)) = none := by
      obtain ⟨a2, t2, rfl⟩ := List.exists_cons_of_ne_nil hne2
      simp only [reMatch,
        tw_digits_stop (a1 :: t1) ((a2 :: t2) ++ c :: rest) '.' hdig1 (by decide),
        dw_digits_stop (a1 :: t1) ((a2 :: t2) ++ c :: rest) '.' hdig1 (by decide),
        tw_digits_stop (a2 :: t2) rest c hdig2 hcdig,
        dw_digits_stop (a2 :: t2) rest c hdig2 hcdig]
      split
      · rfl
      · rename_i r2v heqc hnil0
        exfalso
        rw [List.cons.injEq] at heqc
        rw [heqc.1] at halpha
        exact absurd halpha (by decide)
      · rfl
    unfold splitVersionL
    have hvv := dropWhile_eq_self_of_head (fun x => x == 'v') a1
      (t1 ++ '.' :: (d2 ++ c :: rest)) [] (digit_ne_v (hdig1 a1 (by simp)))
    rw [List.append_nil] at hvv
    rw [show (a1 :: t1) ++ '.' :: (d2 ++ c :: rest) =
        (a1 :: (t1 ++ '.' :: (d2 ++ c :: rest))) from by simp] at hnd ⊢
    rw [hvv]
    have hcf : ¬((a1 :: (t1 ++ '.' :: (d2 ++ c :: rest))).contains '-' = true) := by
      rw [(contains_false_iff _ _).mpr hnd]
      simp
    rw [if_neg hcf]
    rw [show (a1 :: (t1 ++ '.' :: (d2 ++ c :: rest))) =
        ((a1 :: t1) ++ '.' :: (d2 ++ c :: rest)) from by simp]
    rw [hre]

theorem C10_letter_suffix_rule_witness :
    splitVersionL ((['0'] ++ '.' :: ['3'] ++ '.' :: ['0']) ++ 'b' :: []) =
      (['0'] ++ '.' :: ['3'] ++ '.' :: ['0'], some ('b' :: [])) :=
  C10_letter_suffix_rule.1 ['0'] ['3'] ['0'] [] 'b' (by decide) (by decide) (by decide)
    (by decide) (by decide) (by decide) (by decide) (by decide) (by decide)

end Homework
